import Mathlib

/-
Shallow embedding of the tdp-tl voxel engine (src/main.rs, src/voxelidx.rs,
src/monotonicvoxel.rs, src/rangesetvoxel.rs).

Machine integers (i32, usize) are modelled as Int and Nat; all scenarios
evaluated here stay far from the 32-bit range, so wrapping never matters.
External library behaviour is embedded from the libraries' documented
contracts where used by the source:
  - ordslice::Ext::upper_bound_by(f) returns the index of the first element
    for which the comparator returns Greater (slice length if none);
  - rangemap::RangeSet stores disjoint ranges over the element order and
    insert coalesces overlapping or adjacent ranges;
  - std BinaryHeap's sift comparisons go through the element's PartialOrd
    operators; HeapItem's hand-written PartialOrd reverses the comparison on
    the dist field only, so pop yields an item of minimal dist (ties are
    broken by heap layout; this embedding fixes them deterministically).
-/

set_option maxRecDepth 4000

/-- Integer 3-vector, embedding `VoxelIdx { idx: [i32; 3] }` from voxelidx.rs. -/
structure VoxelIdx where
  x : Int
  y : Int
  z : Int
deriving DecidableEq

/-- Componentwise addition (`impl Add for VoxelIdx`). -/
def VoxelIdx.add (a b : VoxelIdx) : VoxelIdx := ⟨a.x + b.x, a.y + b.y, a.z + b.z⟩

/-- Componentwise subtraction (`impl Sub for VoxelIdx`). -/
def VoxelIdx.sub (a b : VoxelIdx) : VoxelIdx := ⟨a.x - b.x, a.y - b.y, a.z - b.z⟩

instance : Add VoxelIdx := ⟨VoxelIdx.add⟩
instance : Sub VoxelIdx := ⟨VoxelIdx.sub⟩

/-- `magnitude_squared`, returning usize: the sum of squares is nonnegative. -/
def VoxelIdx.magnitudeSquared (a : VoxelIdx) : Nat :=
  (a.x * a.x + a.y * a.y + a.z * a.z).toNat

/-- Axis projection `x()`: keep the x component, zero the others. -/
def VoxelIdx.projx (a : VoxelIdx) : VoxelIdx := ⟨a.x, 0, 0⟩

/-- Axis projection `y()`. -/
def VoxelIdx.projy (a : VoxelIdx) : VoxelIdx := ⟨0, a.y, 0⟩

/-- Axis projection `z()`. -/
def VoxelIdx.projz (a : VoxelIdx) : VoxelIdx := ⟨0, 0, a.z⟩

/-- Plane projection `xy()`: zero the z component. -/
def VoxelIdx.xy (a : VoxelIdx) : VoxelIdx := ⟨a.x, a.y, 0⟩

/-- Plane projection `xz()`. -/
def VoxelIdx.xz (a : VoxelIdx) : VoxelIdx := ⟨a.x, 0, a.z⟩

/-- Plane projection `yz()`. -/
def VoxelIdx.yz (a : VoxelIdx) : VoxelIdx := ⟨0, a.y, a.z⟩

/-- `bb_min`: componentwise minimum. -/
def VoxelIdx.bbMin (a b : VoxelIdx) : VoxelIdx := ⟨min a.x b.x, min a.y b.y, min a.z b.z⟩

/-- `bb_max`: componentwise maximum. -/
def VoxelIdx.bbMax (a b : VoxelIdx) : VoxelIdx := ⟨max a.x b.x, max a.y b.y, max a.z b.z⟩

/-- The derived `Ord` of `VoxelIdx` (order on `[i32; 3]`): lexicographic, strict. -/
def VoxelIdx.lexLt (a b : VoxelIdx) : Bool :=
  a.x < b.x || (a.x = b.x && (a.y < b.y || (a.y = b.y && a.z < b.z)))

/-- Lexicographic less-or-equal on `VoxelIdx`. -/
def VoxelIdx.lexLe (a b : VoxelIdx) : Bool := a.lexLt b || a = b

/-- Lexicographic minimum of two coordinates. -/
def lexMin (a b : VoxelIdx) : VoxelIdx := if a.lexLt b then a else b

/-- Lexicographic maximum of two coordinates. -/
def lexMax (a b : VoxelIdx) : VoxelIdx := if a.lexLt b then b else a

/-- `BoundingBox` from main.rs: running min/max plus an insertion count. -/
structure BoundingBox where
  bound_min : VoxelIdx
  bound_max : VoxelIdx
  count : Nat
deriving DecidableEq

/-- `BoundingBox::default()`: zero vectors and count 0. -/
def BoundingBox.empty : BoundingBox := ⟨⟨0, 0, 0⟩, ⟨0, 0, 0⟩, 0⟩

/-- `BoundingBox::add`: first block sets both bounds, later blocks merge componentwise. -/
def BoundingBox.add (bb : BoundingBox) (coord : VoxelIdx) : BoundingBox :=
  if bb.count = 0 then ⟨coord, coord, 1⟩
  else ⟨coord.bbMin bb.bound_min, coord.bbMax bb.bound_max, bb.count + 1⟩

/-- The list of integers `a, a+1, ..., a+n-1`, used to iterate a Rust `Range<i32>`. -/
def intRange (a : Int) : Nat → List Int
  | 0 => []
  | n + 1 => a :: intRange (a + 1) n

/-- A z-axis occupancy run `start..end` (a Rust `Range<i32>`); `stop` stands for `end`. -/
structure MRange where
  start : Int
  stop : Int
deriving DecidableEq

/-- `Range::contains(&z)`: `start <= z < end`. -/
def MRange.containsZ (r : MRange) (z : Int) : Bool := r.start ≤ z && z < r.stop

/-- `Range::is_empty()`: `!(start < end)`. -/
def MRange.isEmptyR (r : MRange) : Bool := !(r.start < r.stop)

/-- The run's length in voxels, `(end - start) as usize`. -/
def MRange.len (r : MRange) : Nat := (r.stop - r.start).toNat

/-- Outcome of the run scan inside `MonotonicVoxel::add`'s `Entry::Occupied` arm. -/
inductive ScanResult where
  | contained : ScanResult
  | updated : List MRange → ScanResult
  | noUpdate : ScanResult
deriving DecidableEq

/-- The `for r in v.get_mut()` loop of `MonotonicVoxel::add`: return false if a run
contains z, else extend the first run with `start == z+1` (prepend) or `end == z`
(append) and break; report when no run matched. -/
def scanRuns (z : Int) : List MRange → ScanResult
  | [] => .noUpdate
  | r :: rest =>
    if r.containsZ z then .contained
    else if r.start = z + 1 then .updated ({ start := z, stop := r.stop } :: rest)
    else if r.stop = z then .updated ({ start := r.start, stop := z + 1 } :: rest)
    else
      match scanRuns z rest with
      | .contained => .contained
      | .updated rest2 => .updated (r :: rest2)
      | .noUpdate => .noUpdate

/-- `r.upper_bound_by(|r| z.cmp(&r.start))` with ordslice's documented contract:
the index of the first element for which the comparator returns Greater
(that is, the first run with `start < z`), or the length if there is none. -/
def upperBoundIdx (z : Int) : List MRange → Nat
  | [] => 0
  | r :: rest => if r.start < z then 0 else upperBoundIdx z rest + 1

/-- `Vec::insert(idx, elem)`. -/
def insertAt (a : MRange) : Nat → List MRange → List MRange
  | 0, l => a :: l
  | _ + 1, [] => [a]
  | n + 1, b :: l => b :: insertAt a n l

/-- One column update of `MonotonicVoxel::add` (the `Entry::Occupied` arm):
`none` means z was already contained and the call returns false. -/
def columnAdd (z : Int) (runs : List MRange) : Option (List MRange) :=
  match scanRuns z runs with
  | .contained => none
  | .updated rs => some rs
  | .noUpdate => some (insertAt ⟨z, z + 1⟩ (upperBoundIdx z runs) runs)

/-- The `BTreeMap<[i32; 2], Vec<Range<i32>>>` of MonotonicVoxel as an
association list kept sorted ascending by key (BTreeMap iteration order). -/
abbrev ColumnMap := List ((Int × Int) × List MRange)

/-- Strict order on BTreeMap keys `[i32; 2]` (derived array order: lexicographic). -/
def keyLt (a b : Int × Int) : Bool := a.1 < b.1 || (a.1 = b.1 && a.2 < b.2)

/-- `BTreeMap::get`. -/
def mapFind (k : Int × Int) : ColumnMap → Option (List MRange)
  | [] => none
  | (k2, runs) :: rest => if k = k2 then some runs else mapFind k rest

/-- The `self.ranges.entry([x, y])` match of `MonotonicVoxel::add`:
a vacant key gets the singleton run `z..z+1`, an occupied key runs `columnAdd`. -/
def mapAdd (k : Int × Int) (z : Int) : ColumnMap → Option ColumnMap
  | [] => some [(k, [⟨z, z + 1⟩])]
  | (k2, runs) :: rest =>
    if k = k2 then (columnAdd z runs).map fun rs => (k2, rs) :: rest
    else if keyLt k k2 then some ((k, [⟨z, z + 1⟩]) :: (k2, runs) :: rest)
    else (mapAdd k z rest).map fun m => (k2, runs) :: m

/-- The run-length store `MonotonicVoxel` from monotonicvoxel.rs. -/
structure MonotonicVoxel where
  ranges : ColumnMap
  bb : BoundingBox
deriving DecidableEq

/-- `MonotonicVoxel::default()`. -/
def MonotonicVoxel.empty : MonotonicVoxel := ⟨[], BoundingBox.empty⟩

/-- `MonotonicVoxel::occupied`: some run of the coordinate's column contains its z. -/
def MonotonicVoxel.occupied (v : MonotonicVoxel) (coord : VoxelIdx) : Bool :=
  match mapFind (coord.x, coord.y) v.ranges with
  | none => false
  | some runs => runs.any fun r => r.containsZ coord.z

/-- `MonotonicVoxel::add`: returns the updated store and the bool the call returns.
The bounding box is updated exactly on the true outcome. -/
def MonotonicVoxel.add (v : MonotonicVoxel) (coord : VoxelIdx) : MonotonicVoxel × Bool :=
  match mapAdd (coord.x, coord.y) coord.z v.ranges with
  | none => (v, false)
  | some m => (⟨m, v.bb.add coord⟩, true)

/-- Sum of run lengths of one column. -/
def runsLen (runs : List MRange) : Nat := (runs.map MRange.len).sum

/-- `MonotonicVoxel::blocks` without the assertion: total of `(end - start) as usize`. -/
def MonotonicVoxel.blocks (v : MonotonicVoxel) : Nat :=
  (v.ranges.map fun kv => runsLen kv.2).sum

/-- `MonotonicVoxel::blocks` with its `assert!(range.start < range.end)` modelled:
`none` when the assertion fires (the process aborts), else the count. -/
def MonotonicVoxel.blocksAssert (v : MonotonicVoxel) : Option Nat :=
  if v.ranges.all fun kv => kv.2.all fun r => r.start < r.stop
  then some v.blocks else none

/-- `MonotonicVoxel::ranges`: total number of stored runs. -/
def MonotonicVoxel.rangesCount (v : MonotonicVoxel) : Nat :=
  (v.ranges.map fun kv => kv.2.length).sum

/-- The mesh `Model` from main.rs: an insertion-ordered deduplicated vertex list
(`indexmap::IndexSet<VoxelIdx>`) and quad faces of vertex indices. -/
structure Model where
  vertices : List VoxelIdx
  faces : List (Nat × Nat × Nat × Nat)
deriving DecidableEq

/-- `Model::default()`. -/
def Model.empty : Model := ⟨[], []⟩

/-- Index of a coordinate in the vertex list, if present. -/
def vertIdx (c : VoxelIdx) : List VoxelIdx → Option Nat
  | [] => none
  | a :: rest => if a = c then some 0 else (vertIdx c rest).map (· + 1)

/-- `Model::add_vert` (`IndexSet::insert_full`): reuse the index of a known
coordinate, else append it and return the fresh index. -/
def Model.addVert (m : Model) (c : VoxelIdx) : Model × Nat :=
  match vertIdx c m.vertices with
  | some i => (m, i)
  | none => (⟨m.vertices ++ [c], m.faces⟩, m.vertices.length)

/-- `Model::add_face`: four corners from an anchor and an extent vector `dir`,
branching on which component of `dir` is zero, exactly as in main.rs. -/
def Model.addFace (m : Model) (coord dir : VoxelIdx) : Model :=
  if dir.x = 0 then
    let p0 := m.addVert coord
    let p1 := p0.1.addVert (coord + dir.projy)
    let p2 := p1.1.addVert (coord + dir.yz)
    let p3 := p2.1.addVert (coord + dir.projz)
    ⟨p3.1.vertices, p3.1.faces ++ [(p0.2, p1.2, p2.2, p3.2)]⟩
  else if dir.y = 0 then
    let p0 := m.addVert coord
    let p1 := p0.1.addVert (coord + dir.projx)
    let p2 := p1.1.addVert (coord + dir.xz)
    let p3 := p2.1.addVert (coord + dir.projz)
    ⟨p3.1.vertices, p3.1.faces ++ [(p0.2, p1.2, p2.2, p3.2)]⟩
  else
    let p0 := m.addVert coord
    let p1 := p0.1.addVert (coord + dir.projx)
    let p2 := p1.1.addVert (coord + dir.xy)
    let p3 := p2.1.addVert (coord + dir.projy)
    ⟨p3.1.vertices, p3.1.faces ++ [(p0.2, p1.2, p2.2, p3.2)]⟩

/-- `MonotonicVoxel::to_model`: per run, skip empty runs, emit the top cap when
the voxel above the run is unoccupied, then lateral quads only for the two
directions present in the source's `faces` table (`+x` and `+y`; the `-x`, `-y`
entries and the bottom cap are commented out in monotonicvoxel.rs). -/
def MonotonicVoxel.toModel (v : MonotonicVoxel) : Model :=
  v.ranges.foldl (fun model kv =>
    kv.2.foldl (fun model r =>
      if r.isEmptyR then model
      else
        let x := kv.1.1
        let y := kv.1.2
        let model :=
          if !(v.occupied ⟨x, y, r.stop⟩) then model.addFace ⟨x, y, r.stop⟩ ⟨1, 1, 0⟩
          else model
        let model := (intRange r.start (r.stop - r.start).toNat).foldl (fun model z =>
          if !(v.occupied ⟨x + 1, y, z⟩) then model.addFace ⟨x + 1, y, z⟩ ⟨0, 1, 1⟩
          else model) model
        (intRange r.start (r.stop - r.start).toNat).foldl (fun model z =>
          if !(v.occupied ⟨x, y + 1, z⟩) then model.addFace ⟨x, y + 1, z⟩ ⟨1, 0, 1⟩
          else model) model)
      model) Model.empty

/-- A stored range of the `rangemap::RangeSet<VoxelIdx>`; `stop` stands for `end`. -/
structure IdxRange where
  start : VoxelIdx
  stop : VoxelIdx
deriving DecidableEq

/-- `RangeSet::insert(s..e)` per the rangemap contract: ranges are kept disjoint
and an inserted range is coalesced with every stored range it overlaps or is
immediately adjacent to (in the lexicographic element order). -/
def rsInsert (s e : VoxelIdx) : List IdxRange → List IdxRange
  | [] => [⟨s, e⟩]
  | r :: rest =>
    if r.stop.lexLt s then r :: rsInsert s e rest
    else if e.lexLt r.start then ⟨s, e⟩ :: r :: rest
    else rsInsert (lexMin s r.start) (lexMax e r.stop) rest

/-- The interval-set store `RangeSetVoxel` from rangesetvoxel.rs; the `RangeSet`
is its stored list of disjoint ranges, sorted ascending. -/
structure RangeSetVoxel where
  rset : List IdxRange
  bb : BoundingBox
deriving DecidableEq

/-- `RangeSetVoxel::default()`. -/
def RangeSetVoxel.empty : RangeSetVoxel := ⟨[], BoundingBox.empty⟩

/-- `RangeSetVoxel::occupied` (`RangeSet::contains`): the coordinate lies in a
stored half-open range under the lexicographic order. -/
def RangeSetVoxel.occupied (v : RangeSetVoxel) (coord : VoxelIdx) : Bool :=
  v.rset.any fun r => r.start.lexLe coord && coord.lexLt r.stop

/-- `RangeSetVoxel::add`: false without mutation when occupied, else insert the
unit-z range `coord .. coord + [0,0,1]` and update the bounding box. -/
def RangeSetVoxel.add (v : RangeSetVoxel) (coord : VoxelIdx) : RangeSetVoxel × Bool :=
  if v.occupied coord then (v, false)
  else (⟨rsInsert coord (coord + ⟨0, 0, 1⟩) v.rset, v.bb.add coord⟩, true)

/-- `RangeSetVoxel::blocks`: total of `(r.end[2] - r.start[2]) as usize`. -/
def RangeSetVoxel.blocks (v : RangeSetVoxel) : Nat :=
  (v.rset.map fun r => (r.stop.z - r.start.z).toNat).sum

/-- `RangeSetVoxel::ranges`: number of stored ranges. -/
def RangeSetVoxel.rangesCount (v : RangeSetVoxel) : Nat := v.rset.length

/-- `RangeSetVoxel::to_model`: per stored range (whose endpoints share x and y,
the source's assert), emit bottom and top caps and all four lateral directions
with the offset/extent table from rangesetvoxel.rs. -/
def RangeSetVoxel.toModel (v : RangeSetVoxel) : Model :=
  v.rset.foldl (fun model r =>
    let x := r.start.x
    let y := r.start.y
    let zlo := r.start.z
    let zhi := r.stop.z
    let model := model.addFace ⟨x, y, zlo⟩ ⟨1, 1, 0⟩
    let model := model.addFace ⟨x, y, zhi⟩ ⟨1, 1, 0⟩
    let model := (intRange zlo (zhi - zlo).toNat).foldl (fun model z =>
      if !(v.occupied ⟨x + 1, y, z⟩) then model.addFace ⟨x + 1, y + 1, z + 1⟩ ⟨0, -1, -1⟩
      else model) model
    let model := (intRange zlo (zhi - zlo).toNat).foldl (fun model z =>
      if !(v.occupied ⟨x - 1, y, z⟩) then model.addFace ⟨x, y, z⟩ ⟨0, 1, 1⟩
      else model) model
    let model := (intRange zlo (zhi - zlo).toNat).foldl (fun model z =>
      if !(v.occupied ⟨x, y + 1, z⟩) then model.addFace ⟨x + 1, y + 1, z + 1⟩ ⟨-1, 0, -1⟩
      else model) model
    (intRange zlo (zhi - zlo).toNat).foldl (fun model z =>
      if !(v.occupied ⟨x, y - 1, z⟩) then model.addFace ⟨x, y, z⟩ ⟨1, 0, 1⟩
      else model) model) Model.empty

/-- The frontier entry of `inject_at`: squared distance to the seed, remaining
depth, coordinate. -/
structure HeapItem where
  dist : Nat
  depth : Nat
  pos : VoxelIdx
deriving DecidableEq

/-- The Voxel trait operations `inject_at` uses on its target store. -/
structure VoxelOps (σ : Type) where
  occupied : σ → VoxelIdx → Bool
  add : σ → VoxelIdx → σ × Bool

/-- The MonotonicVoxel instantiation of the Voxel trait. -/
def monotonicOps : VoxelOps MonotonicVoxel := ⟨MonotonicVoxel.occupied, MonotonicVoxel.add⟩

/-- The RangeSetVoxel instantiation of the Voxel trait. -/
def rangeSetOps : VoxelOps RangeSetVoxel := ⟨RangeSetVoxel.occupied, RangeSetVoxel.add⟩

/-- `BinaryHeap::pop` on `HeapItem`s: the hand-written PartialOrd reverses the
comparison on dist, and the heap's sift comparisons use exactly that order, so
pop removes an entry of minimal dist; ties are fixed here as first-pushed. -/
def popMin : List HeapItem → Option (HeapItem × List HeapItem)
  | [] => none
  | a :: rest =>
    match popMin rest with
    | none => some (a, [])
    | some (m, rest2) => if a.dist ≤ m.dist then some (a, rest) else some (m, a :: rest2)

/-- The 6 axis-aligned neighbor offsets from `inject_at`. -/
def directions : List VoxelIdx :=
  [⟨1, 0, 0⟩, ⟨-1, 0, 0⟩, ⟨0, 1, 0⟩, ⟨0, -1, 0⟩, ⟨0, 0, 1⟩, ⟨0, 0, -1⟩]

/-- The neighbor-expansion loop at the bottom of `inject_at`: keep neighbors
inside the z slab that are not yet visited, each pushed with its squared
distance to the seed and one less depth. -/
def expandDirs (zlow zhigh : Int) (pos0 pos : VoxelIdx) (depth : Nat)
    (visited : MonotonicVoxel) : List HeapItem :=
  directions.filterMap fun d =>
    let next := pos + d
    if next.z < zlow || next.z > zhigh then none
    else if visited.occupied next then none
    else some ⟨(pos0 - next).magnitudeSquared, depth - 1, next⟩

/-- The `while let Some(..) = candidates.pop()` loop of `inject_at`, with an
explicit fuel that the loop never exhausts (each iteration strictly decreases
the measure sum of 7^depth over the frontier, which starts at 7^100 = FUEL).
Returns the final store and the coordinates whose `add` returned true, in
insertion order. -/
def injectLoop {σ : Type} (ops : VoxelOps σ) (zlow zhigh : Int) (pos0 : VoxelIdx) :
    Nat → σ → Nat → MonotonicVoxel → List HeapItem → List VoxelIdx → σ × List VoxelIdx
  | 0, v, _, _, _, acc => (v, acc.reverse)
  | fuel + 1, v, n, visited, heap, acc =>
    match popMin heap with
    | none => (v, acc.reverse)
    | some (item, rest) =>
      if item.depth = 0 then injectLoop ops zlow zhigh pos0 fuel v n visited rest acc
      else
        let va := visited.add item.pos
        if !va.2 then injectLoop ops zlow zhigh pos0 fuel v n va.1 rest acc
        else
          let res := ops.add v item.pos
          if res.2 then
            if n - 1 = 0 then (res.1, (item.pos :: acc).reverse)
            else injectLoop ops zlow zhigh pos0 fuel res.1 (n - 1) va.1
              (rest ++ expandDirs zlow zhigh pos0 item.pos item.depth va.1) (item.pos :: acc)
          else injectLoop ops zlow zhigh pos0 fuel res.1 n va.1
            (rest ++ expandDirs zlow zhigh pos0 item.pos item.depth va.1) acc

/-- Fuel bound for the injector loop: the initial frontier measure 7^100. -/
def FUEL : Nat := 7 ^ 100

/-- `inject_at` from main.rs: return immediately on a zero budget, else run the
best-first loop from the seed pushed with distance 0 and depth 100 over a fresh
visited store. Also returns the successfully inserted coordinates in order. -/
def injectAt {σ : Type} (ops : VoxelOps σ) (v : σ) (zlow zhigh : Int) (pos0 : VoxelIdx)
    (n : Nat) : σ × List VoxelIdx :=
  if n = 0 then (v, [])
  else injectLoop ops zlow zhigh pos0 FUEL v n MonotonicVoxel.empty [⟨0, 100, pos0⟩] []

/-- Run a sequence of `add` calls, recording each call's coordinate and result. -/
def applyAdds {σ : Type} (addf : σ → VoxelIdx → σ × Bool) :
    σ → List VoxelIdx → σ × List (VoxelIdx × Bool)
  | s, [] => (s, [])
  | s, c :: cs =>
    let r := addf s c
    let rec2 := applyAdds addf r.1 cs
    (rec2.1, (c, r.2) :: rec2.2)

/-- The coordinates of the calls that returned true, in call order. -/
def succCoords (l : List (VoxelIdx × Bool)) : List VoxelIdx :=
  (l.filter fun p => p.2).map fun p => p.1

/-- The bounding box the spec describes: componentwise min/max over the
successfully inserted coordinates, with their count; the empty sentinel at
count 0 where the spec calls the box undefined. -/
def bbSpec : List VoxelIdx → BoundingBox
  | [] => BoundingBox.empty
  | c :: rest => ⟨rest.foldl VoxelIdx.bbMin c, rest.foldl VoxelIdx.bbMax c, rest.length + 1⟩

/-- A list of naturals is non-decreasing front to back. -/
def nondecr : List Nat → Bool
  | [] => true
  | [_] => true
  | a :: b :: t => a ≤ b && nondecr (b :: t)

theorem popMin_eq_none {l : List HeapItem} : popMin l = none ↔ l = [] := by
  cases l with
  | nil => simp [popMin]
  | cons a rest =>
    simp only [popMin]
    cases h : popMin rest with
    | none => simp
    | some p =>
      obtain ⟨m, rest2⟩ := p
      by_cases hd : a.dist ≤ m.dist <;> simp [hd]

theorem popMin_mem {l : List HeapItem} {it : HeapItem} {rest : List HeapItem}
    (h : popMin l = some (it, rest)) : it ∈ l := by
  induction l generalizing it rest with
  | nil => simp [popMin] at h
  | cons a tl ih =>
    simp only [popMin] at h
    cases hp : popMin tl with
    | none =>
      rw [hp] at h
      simp at h
      simp [h.1]
    | some p =>
      obtain ⟨m, rest2⟩ := p
      rw [hp] at h
      by_cases hd : a.dist ≤ m.dist
      · simp [hd] at h
        simp [h.1]
      · simp [hd] at h
        exact List.mem_cons_of_mem a (ih (h.1 ▸ hp))

theorem popMin_rest_subset {l : List HeapItem} {it : HeapItem} {rest : List HeapItem}
    (h : popMin l = some (it, rest)) : ∀ x ∈ rest, x ∈ l := by
  induction l generalizing it rest with
  | nil => simp [popMin] at h
  | cons a tl ih =>
    simp only [popMin] at h
    cases hp : popMin tl with
    | none =>
      rw [hp] at h
      simp at h
      intro x hx
      rw [h.2] at hx
      simp at hx
    | some p =>
      obtain ⟨m, rest2⟩ := p
      rw [hp] at h
      by_cases hd : a.dist ≤ m.dist
      · simp [hd] at h
        intro x hx
        rw [← h.2] at hx
        exact List.mem_cons_of_mem a hx
      · simp [hd] at h
        intro x hx
        rw [← h.2] at hx
        rcases List.mem_cons.mp hx with hxa | hx2
        · simp [hxa]
        · exact List.mem_cons_of_mem a (ih (h.1 ▸ hp) x hx2)

theorem popMin_min {l : List HeapItem} {it : HeapItem} {rest : List HeapItem}
    (h : popMin l = some (it, rest)) : ∀ x ∈ l, it.dist ≤ x.dist := by
  induction l generalizing it rest with
  | nil => simp [popMin] at h
  | cons a tl ih =>
    simp only [popMin] at h
    cases hp : popMin tl with
    | none =>
      rw [hp] at h
      simp at h
      have htl : tl = [] := popMin_eq_none.mp hp
      intro x hx
      rw [htl] at hx
      simp at hx
      simp [hx, ← h.1]
    | some p =>
      obtain ⟨m, rest2⟩ := p
      rw [hp] at h
      by_cases hd : a.dist ≤ m.dist
      · simp [hd] at h
        intro x hx
        rcases List.mem_cons.mp hx with hxa | hx2
        · simp [hxa, ← h.1]
        · exact h.1 ▸ le_trans hd (ih hp x hx2)
      · simp [hd] at h
        intro x hx
        rcases List.mem_cons.mp hx with hxa | hx2
        · rw [hxa, ← h.1]
          omega
        · exact h.1 ▸ ih hp x hx2

/-- A coordinate the injector may insert: the seed itself, or inside the slab. -/
def slabOK (zlow zhigh : Int) (pos0 c : VoxelIdx) : Prop :=
  c = pos0 ∨ (zlow ≤ c.z ∧ c.z ≤ zhigh)

theorem expandDirs_slab {zlow zhigh : Int} {pos0 pos : VoxelIdx} {depth : Nat}
    {visited : MonotonicVoxel} :
    ∀ x ∈ expandDirs zlow zhigh pos0 pos depth visited, zlow ≤ x.pos.z ∧ x.pos.z ≤ zhigh := by
  intro x hx
  simp only [expandDirs, List.mem_filterMap] at hx
  obtain ⟨d, _, hd⟩ := hx
  by_cases h1 : (pos + d).z < zlow || (pos + d).z > zhigh
  · simp [h1] at hd
  · rw [if_neg h1] at hd
    by_cases h2 : visited.occupied (pos + d)
    · simp [h2] at hd
    · simp [h2] at hd
      simp only [Bool.or_eq_true, decide_eq_true_eq, not_or, not_lt] at h1
      rw [← hd]
      exact ⟨h1.1, h1.2⟩

theorem injectLoop_slab {σ : Type} (ops : VoxelOps σ) (zlow zhigh : Int) (pos0 : VoxelIdx) :
    ∀ fuel (v : σ) n visited heap acc,
      (∀ it ∈ heap, slabOK zlow zhigh pos0 it.pos) →
      (∀ c ∈ acc, slabOK zlow zhigh pos0 c) →
      ∀ c ∈ (injectLoop ops zlow zhigh pos0 fuel v n visited heap acc).2,
        slabOK zlow zhigh pos0 c := by
  intro fuel
  induction fuel with
  | zero =>
    intro v n visited heap acc _ ha c hc
    simp only [injectLoop, List.mem_reverse] at hc
    exact ha c hc
  | succ fuel ih =>
    intro v n visited heap acc hh ha c hc
    rw [injectLoop] at hc
    cases hpop : popMin heap with
    | none =>
      rw [hpop] at hc
      simp only [List.mem_reverse] at hc
      exact ha c hc
    | some p =>
      obtain ⟨item, rest⟩ := p
      rw [hpop] at hc
      simp only at hc
      have hrest : ∀ it ∈ rest, slabOK zlow zhigh pos0 it.pos :=
        fun it hit => hh it (popMin_rest_subset hpop it hit)
      have hitem : slabOK zlow zhigh pos0 item.pos := hh item (popMin_mem hpop)
      by_cases hdep : item.depth = 0
      · rw [if_pos hdep] at hc
        exact ih v n visited rest acc hrest ha c hc
      · rw [if_neg hdep] at hc
        by_cases hva : (visited.add item.pos).2
        · simp only [hva, Bool.not_true, Bool.false_eq_true, if_false] at hc
          have hexp : ∀ it ∈ rest ++
              expandDirs zlow zhigh pos0 item.pos item.depth (visited.add item.pos).1,
              slabOK zlow zhigh pos0 it.pos := by
            intro it hit
            rcases List.mem_append.mp hit with h1 | h2
            · exact hrest it h1
            · exact Or.inr (expandDirs_slab it h2)
          by_cases hadd : (ops.add v item.pos).2
          · simp only [hadd, if_true] at hc
            by_cases hn : n - 1 = 0
            · rw [if_pos hn] at hc
              simp only [List.reverse_cons, List.mem_append, List.mem_reverse,
                List.mem_singleton] at hc
              rcases hc with h1 | h2
              · exact ha c h1
              · exact h2 ▸ hitem
            · rw [if_neg hn] at hc
              refine ih _ _ _ _ _ hexp ?_ c hc
              intro c2 hc2
              rcases List.mem_cons.mp hc2 with h1 | h2
              · exact h1 ▸ hitem
              · exact ha c2 h2
          · simp only [hadd, if_false] at hc
            exact ih _ _ _ _ _ hexp ha c hc
        · simp only [hva, Bool.not_false, if_true] at hc
          exact ih _ _ _ _ _ hrest ha c hc

theorem injectLoop_acc_suffix {σ : Type} (ops : VoxelOps σ) (zlow zhigh : Int)
    (pos0 : VoxelIdx) :
    ∀ fuel (v : σ) n visited heap acc,
      ∃ t, (injectLoop ops zlow zhigh pos0 fuel v n visited heap acc).2 = acc.reverse ++ t := by
  intro fuel
  induction fuel with
  | zero =>
    intro v n visited heap acc
    exact ⟨[], by simp [injectLoop]⟩
  | succ fuel ih =>
    intro v n visited heap acc
    rw [injectLoop]
    cases hpop : popMin heap with
    | none => exact ⟨[], by simp⟩
    | some p =>
      obtain ⟨item, rest⟩ := p
      simp only
      by_cases hdep : item.depth = 0
      · rw [if_pos hdep]; exact ih v n visited rest acc
      · rw [if_neg hdep]
        by_cases hva : (visited.add item.pos).2
        · simp only [hva, Bool.not_true, Bool.false_eq_true, if_false]
          by_cases hadd : (ops.add v item.pos).2
          · simp only [hadd, if_true]
            by_cases hn : n - 1 = 0
            · rw [if_pos hn]
              exact ⟨[item.pos], by simp⟩
            · rw [if_neg hn]
              obtain ⟨t, ht⟩ := ih (ops.add v item.pos).1 (n - 1) (visited.add item.pos).1
                (rest ++ expandDirs zlow zhigh pos0 item.pos item.depth (visited.add item.pos).1)
                (item.pos :: acc)
              exact ⟨item.pos :: t, by simp only [ht, List.reverse_cons]; simp⟩
          · simp only [hadd, if_false]
            exact ih _ _ _ _ _
        · simp only [hva, Bool.not_false, if_true]
          exact ih _ _ _ _ _

theorem scanRuns_contained {z : Int} {runs : List MRange}
    (h : scanRuns z runs = .contained) : ∃ r ∈ runs, r.containsZ z := by
  induction runs with
  | nil => simp [scanRuns] at h
  | cons r rest ih =>
    simp only [scanRuns] at h
    by_cases h1 : r.containsZ z
    · exact ⟨r, List.mem_cons_self r rest, h1⟩
    · rw [if_neg h1] at h
      by_cases h2 : r.start = z + 1
      · simp [h2] at h
      · rw [if_neg h2] at h
        by_cases h3 : r.stop = z
        · simp [h3] at h
        · rw [if_neg h3] at h
          cases hs : scanRuns z rest with
          | contained =>
            obtain ⟨r2, hr2, hc2⟩ := ih hs
            exact ⟨r2, List.mem_cons_of_mem r hr2, hc2⟩
          | updated rest2 => rw [hs] at h; simp at h
          | noUpdate => rw [hs] at h; simp at h

theorem mapAdd_none {k : Int × Int} {z : Int} {m : ColumnMap}
    (h : mapAdd k z m = none) : ∃ runs, mapFind k m = some runs ∧ ∃ r ∈ runs, r.containsZ z := by
  induction m with
  | nil => simp [mapAdd] at h
  | cons kv rest ih =>
    obtain ⟨k2, runs⟩ := kv
    simp only [mapAdd] at h
    by_cases hk : k = k2
    · rw [if_pos hk] at h
      cases hca : columnAdd z runs with
      | none =>
        simp only [columnAdd] at hca
        cases hs : scanRuns z runs with
        | contained =>
          exact ⟨runs, by simp [mapFind, hk], scanRuns_contained hs⟩
        | updated rs => rw [hs] at hca; simp at hca
        | noUpdate => rw [hs] at hca; simp at hca
      | some rs => rw [hca] at h; simp at h
    · rw [if_neg hk] at h
      by_cases hlt : keyLt k k2
      · simp [hlt] at h
      · rw [if_neg hlt] at h
        cases hm : mapAdd k z rest with
        | none =>
          obtain ⟨runs2, hf, hex⟩ := ih hm
          exact ⟨runs2, by simp [mapFind, hk, hf], hex⟩
        | some m2 => rw [hm] at h; simp at h

theorem mono_add_false {v : MonotonicVoxel} {c : VoxelIdx}
    (h : (v.add c).2 = false) : v.occupied c = true := by
  unfold MonotonicVoxel.add at h
  cases hm : mapAdd (c.x, c.y) c.z v.ranges with
  | none =>
    obtain ⟨runs, hf, r, hr, hc⟩ := mapAdd_none hm
    unfold MonotonicVoxel.occupied
    rw [hf]
    exact List.any_eq_true.mpr ⟨r, hr, hc⟩
  | some m => rw [hm] at h; simp at h

theorem mono_unoccupied_add_true {v : MonotonicVoxel} {c : VoxelIdx}
    (h : v.occupied c = false) : (v.add c).2 = true := by
  by_cases h2 : (v.add c).2
  · exact h2
  · rw [mono_add_false (Bool.not_eq_true _ ▸ h2)] at h
    simp at h

theorem bbMin_comm (a b : VoxelIdx) : a.bbMin b = b.bbMin a := by
  simp only [VoxelIdx.bbMin, VoxelIdx.mk.injEq]
  omega

theorem bbMax_comm (a b : VoxelIdx) : a.bbMax b = b.bbMax a := by
  simp only [VoxelIdx.bbMax, VoxelIdx.mk.injEq]
  omega

theorem mono_add_bb (v : MonotonicVoxel) (c : VoxelIdx) :
    ((v.add c).1).bb = if (v.add c).2 then v.bb.add c else v.bb := by
  unfold MonotonicVoxel.add
  cases hm : mapAdd (c.x, c.y) c.z v.ranges <;> simp

theorem rs_add_bb (v : RangeSetVoxel) (c : VoxelIdx) :
    ((v.add c).1).bb = if (v.add c).2 then v.bb.add c else v.bb := by
  unfold RangeSetVoxel.add
  by_cases h : v.occupied c <;> simp [h]

theorem applyAdds_bb {σ : Type} (addf : σ → VoxelIdx → σ × Bool) (getbb : σ → BoundingBox)
    (hstep : ∀ s c, getbb (addf s c).1 = if (addf s c).2 then (getbb s).add c else getbb s) :
    ∀ (cs : List VoxelIdx) (s : σ),
      getbb (applyAdds addf s cs).1 =
        (succCoords (applyAdds addf s cs).2).foldl BoundingBox.add (getbb s) := by
  intro cs
  induction cs with
  | nil => intro s; simp [applyAdds, succCoords]
  | cons c cs ih =>
    intro s
    simp only [applyAdds]
    by_cases hb : (addf s c).2
    · simp only [succCoords, List.filter_cons, hb, if_true, List.map_cons, List.foldl_cons]
      rw [ih (addf s c).1, hstep s c, if_pos hb]
      rfl
    · have hb2 : (addf s c).2 = false := Bool.not_eq_true _ ▸ hb
      simp only [succCoords, List.filter_cons, hb2, Bool.false_eq_true, if_false]
      rw [ih (addf s c).1, hstep s c, if_neg hb]
      rfl

theorem foldl_bbadd_pos :
    ∀ (L : List VoxelIdx) (bb : BoundingBox), bb.count ≠ 0 →
      L.foldl BoundingBox.add bb =
        ⟨L.foldl VoxelIdx.bbMin bb.bound_min, L.foldl VoxelIdx.bbMax bb.bound_max,
          bb.count + L.length⟩ := by
  intro L
  induction L with
  | nil => intro bb h; simp
  | cons c L ih =>
    intro bb h
    simp only [List.foldl_cons]
    rw [show bb.add c = ⟨c.bbMin bb.bound_min, c.bbMax bb.bound_max, bb.count + 1⟩ by
      simp [BoundingBox.add, h]]
    rw [ih ⟨c.bbMin bb.bound_min, c.bbMax bb.bound_max, bb.count + 1⟩ (by simp)]
    simp only [bbMin_comm c, bbMax_comm c, List.length_cons]
    congr 1
    omega

theorem foldl_bbadd_spec (L : List VoxelIdx) :
    L.foldl BoundingBox.add BoundingBox.empty = bbSpec L := by
  cases L with
  | nil => rfl
  | cons c rest =>
    simp only [List.foldl_cons]
    rw [show BoundingBox.empty.add c = ⟨c, c, 1⟩ by rfl]
    rw [foldl_bbadd_pos rest ⟨c, c, 1⟩ (by simp)]
    simp only [bbSpec]
    congr 1
    omega

/-- All stored runs of a MonotonicVoxel state are non-empty (`start < end`). -/
def MInv (v : MonotonicVoxel) : Prop :=
  ∀ kv ∈ v.ranges, ∀ r ∈ kv.2, r.start < r.stop

theorem scanRuns_updated_props {z : Int} :
    ∀ {runs rs : List MRange}, scanRuns z runs = .updated rs →
      (∀ r ∈ runs, r.start < r.stop) →
      runsLen rs = runsLen runs + 1 ∧ ∀ r ∈ rs, r.start < r.stop := by
  intro runs
  induction runs with
  | nil => intro rs h; simp [scanRuns] at h
  | cons r rest ih =>
    intro rs h hne
    simp only [scanRuns] at h
    by_cases h1 : r.containsZ z
    · simp [h1] at h
    · rw [if_neg h1] at h
      have hr := hne r (List.mem_cons_self r rest)
      have hrest : ∀ r2 ∈ rest, r2.start < r2.stop :=
        fun r2 h2 => hne r2 (List.mem_cons_of_mem r h2)
      by_cases h2 : r.start = z + 1
      · rw [if_pos h2] at h
        simp only [ScanResult.updated.injEq] at h
        subst h
        constructor
        · simp only [runsLen, List.map_cons, List.sum_cons, MRange.len]
          omega
        · intro r2 h2m
          rcases List.mem_cons.mp h2m with he | hm
          · subst he; simp; omega
          · exact hrest r2 hm
      · rw [if_neg h2] at h
        by_cases h3 : r.stop = z
        · rw [if_pos h3] at h
          simp only [ScanResult.updated.injEq] at h
          subst h
          constructor
          · simp only [runsLen, List.map_cons, List.sum_cons, MRange.len]
            omega
          · intro r2 h2m
            rcases List.mem_cons.mp h2m with he | hm
            · subst he; simp; omega
            · exact hrest r2 hm
        · rw [if_neg h3] at h
          cases hs : scanRuns z rest with
          | contained => rw [hs] at h; simp at h
          | updated rest2 =>
            rw [hs] at h
            simp only [ScanResult.updated.injEq] at h
            subst h
            obtain ⟨hsum, hne2⟩ := ih hs hrest
            constructor
            · simp only [runsLen, List.map_cons, List.sum_cons] at hsum ⊢
              omega
            · intro r2 h2m
              rcases List.mem_cons.mp h2m with he | hm
              · subst he; exact hr
              · exact hne2 r2 hm
          | noUpdate => rw [hs] at h; simp at h

theorem insertAt_sum (a : MRange) :
    ∀ (idx : Nat) (l : List MRange), runsLen (insertAt a idx l) = runsLen l + a.len := by
  intro idx
  induction idx with
  | zero => intro l; simp [insertAt, runsLen]; omega
  | succ n ih =>
    intro l
    cases l with
    | nil => simp [insertAt, runsLen]
    | cons b l =>
      simp only [insertAt, runsLen, List.map_cons, List.sum_cons]
      have := ih l
      simp only [runsLen] at this
      omega

theorem insertAt_mem (a : MRange) :
    ∀ (idx : Nat) (l : List MRange) (x : MRange), x ∈ insertAt a idx l → x = a ∨ x ∈ l := by
  intro idx
  induction idx with
  | zero =>
    intro l x hx
    simp only [insertAt] at hx
    rcases List.mem_cons.mp hx with h | h
    · exact Or.inl h
    · exact Or.inr h
  | succ n ih =>
    intro l x hx
    cases l with
    | nil => simp [insertAt] at hx; exact Or.inl hx
    | cons b l =>
      simp only [insertAt] at hx
      rcases List.mem_cons.mp hx with h | h
      · exact Or.inr (h ▸ List.mem_cons_self b l)
      · rcases ih l x h with h2 | h2
        · exact Or.inl h2
        · exact Or.inr (List.mem_cons_of_mem b h2)

theorem columnAdd_props {z : Int} {runs rs : List MRange} (h : columnAdd z runs = some rs)
    (hne : ∀ r ∈ runs, r.start < r.stop) :
    runsLen rs = runsLen runs + 1 ∧ ∀ r ∈ rs, r.start < r.stop := by
  unfold columnAdd at h
  cases hs : scanRuns z runs with
  | contained => rw [hs] at h; simp at h
  | updated rs2 =>
    rw [hs] at h
    simp only [Option.some.injEq] at h
    exact h ▸ scanRuns_updated_props hs hne
  | noUpdate =>
    rw [hs] at h
    simp only [Option.some.injEq] at h
    subst h
    constructor
    · rw [insertAt_sum]
      simp [MRange.len]
    · intro r hr
      rcases insertAt_mem _ _ _ _ hr with he | hm
      · subst he; simp
      · exact hne r hm

/-- Total blocks of a column map. -/
def mapBlocks (m : ColumnMap) : Nat := (m.map fun kv => runsLen kv.2).sum

theorem mapAdd_props {k : Int × Int} {z : Int} :
    ∀ {m m2 : ColumnMap}, mapAdd k z m = some m2 →
      (∀ kv ∈ m, ∀ r ∈ kv.2, r.start < r.stop) →
      mapBlocks m2 = mapBlocks m + 1 ∧ ∀ kv ∈ m2, ∀ r ∈ kv.2, r.start < r.stop := by
  intro m
  induction m with
  | nil =>
    intro m2 h _
    simp only [mapAdd, Option.some.injEq] at h
    subst h
    constructor
    · simp [mapBlocks, runsLen, MRange.len]
    · intro kv hkv r hr
      simp at hkv
      subst hkv
      simp at hr
      subst hr
      simp
  | cons kv0 rest ih =>
    intro m2 h hne
    obtain ⟨k2, runs⟩ := kv0
    simp only [mapAdd] at h
    have hruns : ∀ r ∈ runs, r.start < r.stop := fun r hr =>
      hne (k2, runs) (List.mem_cons_self _ _) r hr
    have hrest : ∀ kv ∈ rest, ∀ r ∈ kv.2, r.start < r.stop := fun kv hkv =>
      hne kv (List.mem_cons_of_mem _ hkv)
    by_cases hk : k = k2
    · rw [if_pos hk] at h
      cases hca : columnAdd z runs with
      | none => rw [hca] at h; simp at h
      | some rs =>
        rw [hca] at h
        simp only [Option.map_some', Option.some.injEq] at h
        subst h
        obtain ⟨hsum, hne2⟩ := columnAdd_props hca hruns
        constructor
        · simp only [mapBlocks, List.map_cons, List.sum_cons]
          omega
        · intro kv hkv r hr
          rcases List.mem_cons.mp hkv with he | hm
          · subst he; exact hne2 r hr
          · exact hrest kv hm r hr
    · rw [if_neg hk] at h
      by_cases hlt : keyLt k k2
      · rw [if_pos hlt] at h
        simp only [Option.some.injEq] at h
        subst h
        constructor
        · simp only [mapBlocks, List.map_cons, List.sum_cons, runsLen, MRange.len]
          simp
          omega
        · intro kv hkv r hr
          rcases List.mem_cons.mp hkv with he | hm
          · subst he
            simp at hr
            subst hr
            simp
          · exact hne kv hm r hr
      · rw [if_neg hlt] at h
        cases hm : mapAdd k z rest with
        | none => rw [hm] at h; simp at h
        | some mrec =>
          rw [hm] at h
          simp only [Option.map_some', Option.some.injEq] at h
          subst h
          obtain ⟨hsum, hne2⟩ := ih hm hrest
          constructor
          · simp only [mapBlocks, List.map_cons, List.sum_cons] at hsum ⊢
            omega
          · intro kv hkv r hr
            rcases List.mem_cons.mp hkv with he | hmem
            · subst he; exact hruns r hr
            · exact hne2 kv hmem r hr

theorem mono_add_step {v : MonotonicVoxel} (c : VoxelIdx) (hinv : MInv v) :
    ((v.add c).1).blocks = v.blocks + (if (v.add c).2 then 1 else 0) ∧ MInv (v.add c).1 := by
  unfold MonotonicVoxel.add
  cases hm : mapAdd (c.x, c.y) c.z v.ranges with
  | none =>
    constructor
    · simp
    · exact hinv
  | some m2 =>
    obtain ⟨hsum, hne2⟩ := mapAdd_props hm hinv
    refine ⟨?_, hne2⟩
    simpa [MonotonicVoxel.blocks, mapBlocks] using hsum

theorem applyAdds_minv : ∀ (cs : List VoxelIdx) (s : MonotonicVoxel), MInv s →
    MInv (applyAdds MonotonicVoxel.add s cs).1 := by
  intro cs
  induction cs with
  | nil => intro s h; exact h
  | cons c cs ih =>
    intro s h
    simp only [applyAdds]
    exact ih (s.add c).1 (mono_add_step c h).2

theorem lexLt_iff (a b : VoxelIdx) :
    a.lexLt b = true ↔ (a.x < b.x ∨ (a.x = b.x ∧ (a.y < b.y ∨ (a.y = b.y ∧ a.z < b.z)))) := by
  simp [VoxelIdx.lexLt]

/-- A stored range spans a single column with positive z extent (the source's
`assert_eq!(range.start.xy(), range.end.xy())` plus non-emptiness). -/
def wfR (r : IdxRange) : Prop :=
  r.start.x = r.stop.x ∧ r.start.y = r.stop.y ∧ r.start.z < r.stop.z

/-- Two column ranges cover disjoint voxel sets: different columns, or
non-overlapping z intervals. -/
def zdisj (r1 r2 : IdxRange) : Prop :=
  r1.start.x ≠ r2.start.x ∨ r1.start.y ≠ r2.start.y ∨
    r1.stop.z ≤ r2.start.z ∨ r2.stop.z ≤ r1.start.z

/-- Total z length of a list of stored ranges. -/
def zlenSum (l : List IdxRange) : Nat := (l.map fun r => (r.stop.z - r.start.z).toNat).sum

theorem rsInsert_spec :
    ∀ (l : List IdxRange) (s e : VoxelIdx),
      (∀ r ∈ l, wfR r) → l.Pairwise zdisj → wfR ⟨s, e⟩ → (∀ r ∈ l, zdisj r ⟨s, e⟩) →
      zlenSum (rsInsert s e l) = zlenSum l + (e.z - s.z).toNat ∧
      (∀ r ∈ rsInsert s e l, wfR r) ∧
      (rsInsert s e l).Pairwise zdisj ∧
      ∀ t, wfR t → (∀ r ∈ l, zdisj t r) → zdisj t ⟨s, e⟩ → ∀ r2 ∈ rsInsert s e l, zdisj t r2 := by
  intro l
  induction l with
  | nil =>
    intro s e _ _ hse _
    refine ⟨by simp [zlenSum, rsInsert], ?_, ?_, ?_⟩
    · intro r hr
      simp only [rsInsert, List.mem_singleton] at hr
      exact hr ▸ hse
    · simp [rsInsert]
    · intro t _ _ htse r2 hr2
      simp only [rsInsert, List.mem_singleton] at hr2
      exact hr2 ▸ htse
  | cons r rest ih =>
    intro s e hwf hpw hse hdis
    have hwf_r : wfR r := hwf r (List.mem_cons_self r rest)
    have hwf_rest : ∀ r2 ∈ rest, wfR r2 := fun r2 h2 => hwf r2 (List.mem_cons_of_mem r h2)
    have hd : ∀ r2 ∈ rest, zdisj r r2 := (List.pairwise_cons.mp hpw).1
    have hpw2 : rest.Pairwise zdisj := (List.pairwise_cons.mp hpw).2
    have hdis_r : zdisj r ⟨s, e⟩ := hdis r (List.mem_cons_self r rest)
    have hdis_rest : ∀ r2 ∈ rest, zdisj r2 ⟨s, e⟩ :=
      fun r2 h2 => hdis r2 (List.mem_cons_of_mem r h2)
    by_cases hb : r.stop.lexLt s = true
    · rw [show rsInsert s e (r :: rest) = r :: rsInsert s e rest by
        simp [rsInsert, hb]]
      obtain ⟨ihsum, ihwf, ihpw, ihext⟩ := ih s e hwf_rest hpw2 hse hdis_rest
      refine ⟨?_, ?_, ?_, ?_⟩
      · simp only [zlenSum, List.map_cons, List.sum_cons] at ihsum ⊢
        omega
      · intro r2 hr2
        rcases List.mem_cons.mp hr2 with he | hm
        · exact he ▸ hwf_r
        · exact ihwf r2 hm
      · exact List.pairwise_cons.mpr ⟨ihext r hwf_r hd hdis_r, ihpw⟩
      · intro t hwt htl htse r2 hr2
        rcases List.mem_cons.mp hr2 with he | hm
        · exact he ▸ htl r (List.mem_cons_self r rest)
        · exact ihext t hwt (fun r3 h3 => htl r3 (List.mem_cons_of_mem r h3)) htse r2 hm
    · by_cases hb2 : e.lexLt r.start = true
      · rw [show rsInsert s e (r :: rest) = ⟨s, e⟩ :: r :: rest by
          simp [rsInsert, hb, hb2]]
        refine ⟨?_, ?_, ?_, ?_⟩
        · simp only [zlenSum, List.map_cons, List.sum_cons]
          omega
        · intro r2 hr2
          rcases List.mem_cons.mp hr2 with he | hm
          · exact he ▸ hse
          · exact hwf r2 hm
        · refine List.pairwise_cons.mpr ⟨?_, hpw⟩
          intro r2 hr2
          have := hdis r2 hr2
          simp only [zdisj] at this ⊢
          omega
        · intro t _ htl htse r2 hr2
          rcases List.mem_cons.mp hr2 with he | hm
          · exact he ▸ htse
          · exact htl r2 hm
      · have hbz : ¬ (r.stop.lexLt s = true) := hb
        have hbz2 : ¬ (e.lexLt r.start = true) := hb2
        rw [lexLt_iff] at hbz hbz2
        obtain ⟨rxy, ryy, rzz⟩ := hwf_r
        obtain ⟨sxy, syy, szz⟩ := hse
        simp only at rxy ryy rzz sxy syy szz
        have hax : r.start.x = s.x := by omega
        have hay : r.start.y = s.y := by omega
        have hbzge : s.z ≤ r.stop.z := by omega
        have hazle : r.start.z ≤ e.z := by omega
        have hdr : r.start.x ≠ s.x ∨ r.start.y ≠ s.y ∨ r.stop.z ≤ s.z ∨ e.z ≤ r.start.z :=
          hdis_r
        have hadj : r.stop.z = s.z ∨ r.start.z = e.z := by omega
        have hstep : rsInsert s e (r :: rest) =
            rsInsert (lexMin s r.start) (lexMax e r.stop) rest := by
          simp [rsInsert, hb, hb2]
        rcases hadj with hj | hj
        · have hmin : lexMin s r.start = r.start := by
            have hlt : ¬ (s.lexLt r.start = true) := by rw [lexLt_iff]; omega
            simp [lexMin, hlt]
          have hmax : lexMax e r.stop = e := by
            have hlt : ¬ (e.lexLt r.stop = true) := by rw [lexLt_iff]; omega
            simp [lexMax, hlt]
          rw [hstep, hmin, hmax]
          have hwfm : wfR ⟨r.start, e⟩ := by
            refine ⟨by simp; omega, by simp; omega, by simp; omega⟩
          have hdis2 : ∀ r2 ∈ rest, zdisj r2 ⟨r.start, e⟩ := by
            intro r2 h2
            have h3 := hd r2 h2
            have h4 := hdis_rest r2 h2
            obtain ⟨w1, w2, w3⟩ := hwf_rest r2 h2
            simp only [zdisj] at h3 h4 ⊢
            omega
          obtain ⟨ihsum, ihwf, ihpw, ihext⟩ := ih r.start e hwf_rest hpw2 hwfm hdis2
          refine ⟨?_, ihwf, ihpw, ?_⟩
          · simp only [zlenSum, List.map_cons, List.sum_cons] at ihsum ⊢
            omega
          · intro t hwt htl htse r2 hr2
            have h3 : t.start.x ≠ r.start.x ∨ t.start.y ≠ r.start.y ∨
                t.stop.z ≤ r.start.z ∨ r.stop.z ≤ t.start.z :=
              htl r (List.mem_cons_self r rest)
            have h4 : t.start.x ≠ s.x ∨ t.start.y ≠ s.y ∨
                t.stop.z ≤ s.z ∨ e.z ≤ t.start.z := htse
            have w3 : t.start.z < t.stop.z := hwt.2.2
            refine ihext t hwt (fun r3 hr3 => htl r3 (List.mem_cons_of_mem r hr3)) ?_ r2 hr2
            show t.start.x ≠ r.start.x ∨ t.start.y ≠ r.start.y ∨
              t.stop.z ≤ r.start.z ∨ e.z ≤ t.start.z
            omega
        · have hmin : lexMin s r.start = s := by
            have hlt : s.lexLt r.start = true := by rw [lexLt_iff]; omega
            simp [lexMin, hlt]
          have hmax : lexMax e r.stop = r.stop := by
            have hlt : e.lexLt r.stop = true := by rw [lexLt_iff]; omega
            simp [lexMax, hlt]
          rw [hstep, hmin, hmax]
          have hwfm : wfR ⟨s, r.stop⟩ := by
            refine ⟨by simp; omega, by simp; omega, by simp; omega⟩
          have hdis2 : ∀ r2 ∈ rest, zdisj r2 ⟨s, r.stop⟩ := by
            intro r2 h2
            have h3 := hd r2 h2
            have h4 := hdis_rest r2 h2
            obtain ⟨w1, w2, w3⟩ := hwf_rest r2 h2
            simp only [zdisj] at h3 h4 ⊢
            omega
          obtain ⟨ihsum, ihwf, ihpw, ihext⟩ := ih s r.stop hwf_rest hpw2 hwfm hdis2
          refine ⟨?_, ihwf, ihpw, ?_⟩
          · simp only [zlenSum, List.map_cons, List.sum_cons] at ihsum ⊢
            omega
          · intro t hwt htl htse r2 hr2
            have h3 : t.start.x ≠ r.start.x ∨ t.start.y ≠ r.start.y ∨
                t.stop.z ≤ r.start.z ∨ r.stop.z ≤ t.start.z :=
              htl r (List.mem_cons_self r rest)
            have h4 : t.start.x ≠ s.x ∨ t.start.y ≠ s.y ∨
                t.stop.z ≤ s.z ∨ e.z ≤ t.start.z := htse
            have w3 : t.start.z < t.stop.z := hwt.2.2
            refine ihext t hwt (fun r3 hr3 => htl r3 (List.mem_cons_of_mem r hr3)) ?_ r2 hr2
            show t.start.x ≠ s.x ∨ t.start.y ≠ s.y ∨
              t.stop.z ≤ s.z ∨ r.stop.z ≤ t.start.z
            omega

theorem VoxelIdx.eq_iff (a b : VoxelIdx) : a = b ↔ (a.x = b.x ∧ a.y = b.y ∧ a.z = b.z) := by
  constructor
  · intro h
    subst h
    exact ⟨rfl, rfl, rfl⟩
  · intro h
    cases a
    cases b
    simp only [VoxelIdx.mk.injEq]
    exact h

theorem inRange_iff {r : IdxRange} (hw : wfR r) (c : VoxelIdx) :
    (r.start.lexLe c && c.lexLt r.stop) = true ↔
      (r.start.x = c.x ∧ r.start.y = c.y ∧ r.start.z ≤ c.z ∧ c.z < r.stop.z) := by
  obtain ⟨h1, h2, h3⟩ := hw
  simp only [Bool.and_eq_true, VoxelIdx.lexLe, Bool.or_eq_true, lexLt_iff,
    decide_eq_true_eq, VoxelIdx.eq_iff]
  omega

/-- The RangeSet state invariant: single-column non-empty ranges, pairwise disjoint. -/
def RSInvV (v : RangeSetVoxel) : Prop :=
  (∀ r ∈ v.rset, wfR r) ∧ v.rset.Pairwise zdisj

theorem rs_unoccupied_disj {v : RangeSetVoxel} {c : VoxelIdx}
    (hw : ∀ r ∈ v.rset, wfR r) (h : v.occupied c = false) :
    ∀ r ∈ v.rset, zdisj r ⟨c, c + ⟨0, 0, 1⟩⟩ := by
  intro r hr
  have hne : ¬ ((r.start.lexLe c && c.lexLt r.stop) = true) := by
    intro hc
    rw [show v.occupied c = true from List.any_eq_true.mpr ⟨r, hr, hc⟩] at h
    simp at h
  rw [inRange_iff (hw r hr) c] at hne
  have hwr := hw r hr
  obtain ⟨h1, h2, h3⟩ := hwr
  show r.start.x ≠ c.x ∨ r.start.y ≠ c.y ∨ r.stop.z ≤ c.z ∨ c.z + 1 ≤ r.start.z
  omega

theorem rs_add_step {v : RangeSetVoxel} (c : VoxelIdx) (hinv : RSInvV v) :
    ((v.add c).1).blocks = v.blocks + (if (v.add c).2 then 1 else 0) ∧ RSInvV (v.add c).1 := by
  unfold RangeSetVoxel.add
  by_cases h : v.occupied c
  · simp only [h, if_true]
    exact ⟨by simp, hinv⟩
  · have h2 : v.occupied c = false := Bool.not_eq_true _ ▸ h
    simp only [h2, Bool.false_eq_true, if_false]
    have hwfm : wfR ⟨c, c + ⟨0, 0, 1⟩⟩ := by
      refine ⟨?_, ?_, ?_⟩
      · show c.x = c.x + 0
        omega
      · show c.y = c.y + 0
        omega
      · show c.z < c.z + 1
        omega
    obtain ⟨hsum, hwf2, hpw2, _⟩ :=
      rsInsert_spec v.rset c (c + ⟨0, 0, 1⟩) hinv.1 hinv.2 hwfm
        (rs_unoccupied_disj hinv.1 h2)
    refine ⟨?_, hwf2, hpw2⟩
    show zlenSum (rsInsert c (c + ⟨0, 0, 1⟩) v.rset) = zlenSum v.rset + 1
    rw [hsum]
    congr 1
    show (c.z + 1 - c.z).toNat = 1
    omega

theorem applyAdds_rsinv : ∀ (cs : List VoxelIdx) (s : RangeSetVoxel), RSInvV s →
    RSInvV (applyAdds RangeSetVoxel.add s cs).1 := by
  intro cs
  induction cs with
  | nil => intro s h; exact h
  | cons c cs ih =>
    intro s h
    simp only [applyAdds]
    exact ih (s.add c).1 (rs_add_step c h).2

theorem rs_unoccupied_add_true {v : RangeSetVoxel} {c : VoxelIdx}
    (h : v.occupied c = false) : (v.add c).2 = true := by
  simp [RangeSetVoxel.add, h]

theorem injectAt_seed_first {σ : Type} (ops : VoxelOps σ) (v : σ) (zlow zhigh : Int)
    (pos0 : VoxelIdx) (n : Nat) (hn : n ≠ 0) (hadd : (ops.add v pos0).2 = true) :
    (injectAt ops v zlow zhigh pos0 n).2.head? = some pos0 := by
  unfold injectAt
  rw [if_neg hn]
  have hpos : 0 < FUEL := pow_pos (by norm_num) 100
  rw [show FUEL = (FUEL - 1) + 1 from (Nat.succ_pred_eq_of_pos hpos).symm]
  rw [injectLoop]
  rw [show popMin [⟨0, 100, pos0⟩] = some (⟨0, 100, pos0⟩, []) from rfl]
  simp only
  rw [if_neg (show ¬ ((⟨0, 100, pos0⟩ : HeapItem).depth = 0) by simp)]
  rw [show ((MonotonicVoxel.empty.add (⟨0, 100, pos0⟩ : HeapItem).pos).2) = true from rfl]
  simp only [Bool.not_true, Bool.false_eq_true, if_false]
  rw [show (ops.add v (⟨0, 100, pos0⟩ : HeapItem).pos).2 = true from hadd]
  simp only [if_true]
  by_cases hn1 : n - 1 = 0
  · rw [if_pos hn1]
    rfl
  · rw [if_neg hn1]
    obtain ⟨t, ht⟩ := injectLoop_acc_suffix ops zlow zhigh pos0 (FUEL - 1)
      (ops.add v (⟨0, 100, pos0⟩ : HeapItem).pos).1 (n - 1)
      (MonotonicVoxel.empty.add (⟨0, 100, pos0⟩ : HeapItem).pos).1
      ([] ++ expandDirs zlow zhigh pos0 (⟨0, 100, pos0⟩ : HeapItem).pos
        (⟨0, 100, pos0⟩ : HeapItem).depth
        (MonotonicVoxel.empty.add (⟨0, 100, pos0⟩ : HeapItem).pos).1)
      [(⟨0, 100, pos0⟩ : HeapItem).pos]
    rw [ht]
    rfl

/-- The four-call sequence that drives one column of the run-length store into
an overlapping-runs state: seed run at z = 0, detached run at z = 2, bridging
insert at z = 1, then a repeat of z = 0. -/
def trace3 : List VoxelIdx := [⟨0, 0, 0⟩, ⟨0, 0, 2⟩, ⟨0, 0, 1⟩]

/-- C1: within one `inject_at` call, the frontier pop returns a minimum-distance
entry, and the coordinates whose target `add` returned true have non-decreasing
squared distance to the seed, checked on the spec's scenario (empty target,
unconstrained slab, depth 100, budget 7). -/
theorem C1_pop_min_distance_ordering :
    (∀ (l : List HeapItem) (it : HeapItem) (rest : List HeapItem),
        popMin l = some (it, rest) → ∀ x ∈ l, it.dist ≤ x.dist) ∧
    (injectAt monotonicOps MonotonicVoxel.empty (-100) 100 ⟨0, 0, 0⟩ 7).2.length = 7 ∧
    nondecr ((injectAt monotonicOps MonotonicVoxel.empty (-100) 100 ⟨0, 0, 0⟩ 7).2.map
      fun c => ((⟨0, 0, 0⟩ : VoxelIdx) - c).magnitudeSquared) = true := by
  refine ⟨fun l it rest h => popMin_min h, ?_, ?_⟩ <;> decide

theorem C1_witness :
    (HeapItem.mk 1 5 ⟨1, 0, 0⟩).dist ≤ (HeapItem.mk 3 0 ⟨0, 0, 0⟩).dist :=
  C1_pop_min_distance_ordering.1 [⟨3, 0, ⟨0, 0, 0⟩⟩, ⟨1, 5, ⟨1, 0, 0⟩⟩]
    ⟨1, 5, ⟨1, 0, 0⟩⟩ [⟨3, 0, ⟨0, 0, 0⟩⟩] (by decide) ⟨3, 0, ⟨0, 0, 0⟩⟩ (by decide)

/-- C2 (bug evaluation): after adds at z = 0, 2, 1 in column (0,0), the
coordinate (0,0,0) is occupied, yet a further `add (0,0,0)` returns true
(it extends the run [1,3) downward instead of seeing the run [0,1)). -/
theorem C2_add_true_on_occupied :
    ((applyAdds MonotonicVoxel.add MonotonicVoxel.empty trace3).1.occupied ⟨0, 0, 0⟩ = true) ∧
    (((applyAdds MonotonicVoxel.add MonotonicVoxel.empty trace3).1.add ⟨0, 0, 0⟩).2 = true) := by
  decide

/-- C3 (bug evaluation): two adds leave the column's run list in descending
start order `[2..3, 0..1]`, and the four-call sequence leaves runs `[0..3, 0..1]`
in one column, both containing z = 0 (overlap). -/
theorem C3_runs_overlap_and_unsorted :
    (mapFind (0, 0) ((applyAdds MonotonicVoxel.add MonotonicVoxel.empty
        [⟨0, 0, 0⟩, ⟨0, 0, 2⟩]).1.ranges) = some [⟨2, 3⟩, ⟨0, 1⟩]) ∧
    (mapFind (0, 0) ((applyAdds MonotonicVoxel.add MonotonicVoxel.empty
        (trace3 ++ [⟨0, 0, 0⟩])).1.ranges) = some [⟨0, 3⟩, ⟨0, 1⟩]) ∧
    ((⟨0, 3⟩ : MRange).containsZ 0 = true) ∧ ((⟨0, 1⟩ : MRange).containsZ 0 = true) := by
  decide

/-- C4 counterexample: a single voxel in the run-length store does not yield 6
quads (the `-x`, `-y` laterals and bottom cap are commented out in the source). -/
theorem C4_counterexample :
    ¬ (((MonotonicVoxel.empty.add ⟨0, 0, 0⟩).1.toModel).faces.length = 6) := by
  decide

/-- C4 (amended): one voxel yields 3 quads and 7 distinct vertices under the
run-length extractor (top cap, +x, +y only), and 6 quads and 8 distinct
vertices under the interval-set extractor (both caps and all four laterals). -/
theorem C4_single_voxel_meshes :
    (((MonotonicVoxel.empty.add ⟨0, 0, 0⟩).1.toModel).faces.length = 3) ∧
    (((MonotonicVoxel.empty.add ⟨0, 0, 0⟩).1.toModel).vertices.length = 7) ∧
    (((MonotonicVoxel.empty.add ⟨0, 0, 0⟩).1.toModel).vertices.Nodup) ∧
    (((RangeSetVoxel.empty.add ⟨0, 0, 0⟩).1.toModel).faces.length = 6) ∧
    (((RangeSetVoxel.empty.add ⟨0, 0, 0⟩).1.toModel).vertices.length = 8) ∧
    (((RangeSetVoxel.empty.add ⟨0, 0, 0⟩).1.toModel).vertices.Nodup) := by
  decide

/-- C5: for either variant, after any prefix of add calls from the empty store,
the next add changes blocks() by exactly 1 when it returns true and leaves it
unchanged when it returns false. -/
theorem C5_blocks_step :
    (∀ (cs : List VoxelIdx) (c : VoxelIdx),
      ((applyAdds MonotonicVoxel.add MonotonicVoxel.empty cs).1.add c).1.blocks =
        (applyAdds MonotonicVoxel.add MonotonicVoxel.empty cs).1.blocks +
          (if ((applyAdds MonotonicVoxel.add MonotonicVoxel.empty cs).1.add c).2
            then 1 else 0)) ∧
    (∀ (cs : List VoxelIdx) (c : VoxelIdx),
      ((applyAdds RangeSetVoxel.add RangeSetVoxel.empty cs).1.add c).1.blocks =
        (applyAdds RangeSetVoxel.add RangeSetVoxel.empty cs).1.blocks +
          (if ((applyAdds RangeSetVoxel.add RangeSetVoxel.empty cs).1.add c).2
            then 1 else 0)) := by
  constructor
  · intro cs c
    refine (mono_add_step c (applyAdds_minv cs MonotonicVoxel.empty ?_)).1
    intro kv hkv
    exact absurd hkv (List.not_mem_nil kv)
  · intro cs c
    refine (rs_add_step c (applyAdds_rsinv cs RangeSetVoxel.empty
      ⟨?_, List.Pairwise.nil⟩)).1
    intro r hr
    exact absurd hr (List.not_mem_nil r)

/-- C6: for either variant and any sequence of add calls from the empty store,
the bounding box equals the componentwise min/max (and count) over exactly the
coordinates whose add returned true. -/
theorem C6_bounding_box :
    (∀ cs : List VoxelIdx,
      (applyAdds MonotonicVoxel.add MonotonicVoxel.empty cs).1.bb =
        bbSpec (succCoords (applyAdds MonotonicVoxel.add MonotonicVoxel.empty cs).2)) ∧
    (∀ cs : List VoxelIdx,
      (applyAdds RangeSetVoxel.add RangeSetVoxel.empty cs).1.bb =
        bbSpec (succCoords (applyAdds RangeSetVoxel.add RangeSetVoxel.empty cs).2)) := by
  constructor
  · intro cs
    rw [applyAdds_bb MonotonicVoxel.add MonotonicVoxel.bb mono_add_bb cs MonotonicVoxel.empty]
    exact foldl_bbadd_spec _
  · intro cs
    rw [applyAdds_bb RangeSetVoxel.add RangeSetVoxel.bb rs_add_bb cs RangeSetVoxel.empty]
    exact foldl_bbadd_spec _

/-- C7: a zero budget makes inject_at a no-op: the target store is returned
unchanged and nothing is inserted, for any store type, slab and seed. -/
theorem C7_inject_zero_noop :
    ∀ (σ : Type) (ops : VoxelOps σ) (v : σ) (zlow zhigh : Int) (pos0 : VoxelIdx),
      injectAt ops v zlow zhigh pos0 0 = (v, []) := by
  intro σ ops v zlow zhigh pos0
  simp [injectAt]

/-- C8 counterexample: on a store holding the malformed run 5..5, the mesh
extraction returns normally with an empty model (the run is skipped via the
`is_empty` check) instead of aborting. -/
theorem C8_counterexample :
    MonotonicVoxel.toModel ⟨[((0, 0), [⟨5, 5⟩])], BoundingBox.empty⟩ = Model.empty := by
  decide

/-- C8 (amended): blocks() aborts on a malformed run (its assertion fires),
while to_model silently skips such a run and continues with the remaining
runs, producing the same mesh as if the malformed run were absent. -/
theorem C8_blocks_asserts_toModel_skips :
    (MonotonicVoxel.blocksAssert ⟨[((0, 0), [⟨5, 5⟩])], BoundingBox.empty⟩ = none) ∧
    (MonotonicVoxel.toModel ⟨[((0, 0), [⟨5, 5⟩, ⟨7, 9⟩])], BoundingBox.empty⟩ =
      MonotonicVoxel.toModel ⟨[((0, 0), [⟨7, 9⟩])], BoundingBox.empty⟩) ∧
    (MonotonicVoxel.blocksAssert ⟨[((0, 0), [⟨7, 9⟩])], BoundingBox.empty⟩ = some 2) := by
  decide

/-- C9 (bug evaluation): on the four-call sequence the two variants disagree:
the run-length store answers true on the fourth add and reports 4 blocks, the
interval-set store answers false and reports 3 blocks. -/
theorem C9_variants_diverge :
    ((applyAdds MonotonicVoxel.add MonotonicVoxel.empty (trace3 ++ [⟨0, 0, 0⟩])).2.map
        (fun p => p.2) = [true, true, true, true]) ∧
    ((applyAdds RangeSetVoxel.add RangeSetVoxel.empty (trace3 ++ [⟨0, 0, 0⟩])).2.map
        (fun p => p.2) = [true, true, true, false]) ∧
    ((applyAdds MonotonicVoxel.add MonotonicVoxel.empty (trace3 ++ [⟨0, 0, 0⟩])).1.blocks = 4) ∧
    ((applyAdds RangeSetVoxel.add RangeSetVoxel.empty (trace3 ++ [⟨0, 0, 0⟩])).1.blocks = 3) := by
  decide

/-- C10: every coordinate inject_at successfully inserts is either the seed or
has z inside the slab; and when the budget is positive and the seed is not yet
occupied, the seed itself is the first insertion — with no slab check applied
to it — for both store variants. -/
theorem C10_slab_and_seed :
    (∀ (σ : Type) (ops : VoxelOps σ) (v : σ) (zlow zhigh : Int) (pos0 : VoxelIdx) (n : Nat),
      ∀ c ∈ (injectAt ops v zlow zhigh pos0 n).2,
        c = pos0 ∨ (zlow ≤ c.z ∧ c.z ≤ zhigh)) ∧
    (∀ (v : MonotonicVoxel) (zlow zhigh : Int) (pos0 : VoxelIdx) (n : Nat),
      n ≠ 0 → v.occupied pos0 = false →
        (injectAt monotonicOps v zlow zhigh pos0 n).2.head? = some pos0) ∧
    (∀ (v : RangeSetVoxel) (zlow zhigh : Int) (pos0 : VoxelIdx) (n : Nat),
      n ≠ 0 → v.occupied pos0 = false →
        (injectAt rangeSetOps v zlow zhigh pos0 n).2.head? = some pos0) := by
  refine ⟨?_, ?_, ?_⟩
  · intro σ ops v zlow zhigh pos0 n c hc
    unfold injectAt at hc
    by_cases hn : n = 0
    · rw [if_pos hn] at hc
      simp at hc
    · rw [if_neg hn] at hc
      refine injectLoop_slab ops zlow zhigh pos0 FUEL v n MonotonicVoxel.empty
        [⟨0, 100, pos0⟩] [] ?_ ?_ c hc
      · intro it hit
        rw [List.mem_singleton] at hit
        exact Or.inl (by rw [hit])
      · intro c2 hc2
        exact absurd hc2 (List.not_mem_nil c2)
  · intro v zlow zhigh pos0 n hn hocc
    exact injectAt_seed_first monotonicOps v zlow zhigh pos0 n hn
      (mono_unoccupied_add_true hocc)
  · intro v zlow zhigh pos0 n hn hocc
    exact injectAt_seed_first rangeSetOps v zlow zhigh pos0 n hn
      (rs_unoccupied_add_true hocc)

theorem C10_witness :
    ((⟨0, 0, 5⟩ : VoxelIdx) = ⟨0, 0, 5⟩ ∨
      ((0 : Int) ≤ (⟨0, 0, 5⟩ : VoxelIdx).z ∧ (⟨0, 0, 5⟩ : VoxelIdx).z ≤ 0)) ∧
    (injectAt monotonicOps MonotonicVoxel.empty 0 0 ⟨0, 0, 5⟩ 1).2.head? =
      some ⟨0, 0, 5⟩ :=
  ⟨C10_slab_and_seed.1 MonotonicVoxel monotonicOps MonotonicVoxel.empty 0 0 ⟨0, 0, 5⟩ 1
      ⟨0, 0, 5⟩ (by decide),
    C10_slab_and_seed.2.1 MonotonicVoxel.empty 0 0 ⟨0, 0, 5⟩ 1 (by decide) (by decide)⟩
